import Mathlib

/-!
# Verification of the Creathon25 segment-extraction core

Shallow embedding of the time-index resolution and segmentation engine of
`lib/loader.py` (classes `Signal`, `SingleFileExtractor`, `FolderExtractor`),
of the timestamp handling of `lib/artefact.py` / `lib/helpers.py` /
`lib/exporters.py`, and proofs of the specification claims about them.

Conventions of the embedding:
* Python `int` and NumPy `int64` values are modelled as `ℤ` (the data sets in
  scope never approach 2^63, and the code performs no intentional wrap-around).
* Python `float` arithmetic on timestamps is modelled exactly over `ℚ`;
  NumPy sample values are modelled by `NpVal`, which distinguishes finite
  values from `nan` / `+inf` / `-inf` so that sanitization can be stated.
* Python's `int(x)` truncation toward zero is `pyTrunc`; Python/`h5py` list
  slicing `l[i:j]` is `pySlice`; Python negative indexing `l[i]` is `pyGet`.
* `np.searchsorted` on a sorted array is modelled by counting functions
  (`ssRight`, `ssLeft`), which agree with binary search on sorted input.
* Python dictionaries preserve insertion order; the per-`Signal` chunk cache
  `self._data` is therefore modelled as an association list in insertion
  order.
-/

/-- Python `int(x)` applied to a float/rational: truncation toward zero.
`Int.tdiv` is T-division, exactly C/Python truncation. -/
def pyTrunc (q : ℚ) : ℤ := q.num.tdiv q.den

/-- Python list / NumPy array slicing `l[i:j]` with the usual clamping and
negative-index normalisation. -/
def pySlice {α : Type} (l : List α) (i j : ℤ) : List α :=
  let n : ℤ := l.length
  let i' : ℕ := if i < 0 then (n + i).toNat else i.toNat
  let j' : ℕ := if j < 0 then (n + j).toNat else j.toNat
  (l.take j').drop i'

/-- Python indexing `l[i]`, with negative indices counting from the end;
`none` is an `IndexError`. -/
def pyGet {α : Type} (l : List α) (i : ℤ) : Option α :=
  if 0 ≤ i then l.get? i.toNat
  else if (-i).toNat ≤ l.length then l.get? (l.length - (-i).toNat) else none

/-- `np.linspace a b n`: `n` evenly spaced points from `a` to `b` inclusive
(for `n = 1` just `[a]`), computed exactly over `ℚ`. -/
def linspace (a b : ℚ) (n : ℕ) : List ℚ :=
  (List.range n).map (fun i : ℕ => a + (b - a) * (i : ℚ) / ((n : ℚ) - 1))

/-- `SingleFileExtractor._get_anomaly_normal_segments`, inner-gap slicing
(loader.py lines 240-243): the `(start_time, end_time)` pairs of the normal
`Segment`s produced for one gap running from `s` (previous artefact's end)
to `e` (next artefact's start), both in µs.  The code computes
`arr = np.linspace(s, e, int((e - s) / 10_000_000) + 1)` and emits the pair
`(arr[i], arr[i+1])` for `i in range(len(arr) - 1)`. -/
def gapNormalSegments (s e : ℚ) : List (ℚ × ℚ) :=
  let n : ℕ := (pyTrunc ((e - s) / 10000000)).toNat + 1
  let arr := linspace s e n
  (List.range (arr.length - 1)).map (fun i => (arr.getD i 0, arr.getD (i + 1) 0))

lemma pyTrunc_eq_floor {q : ℚ} (h : 0 ≤ q) : pyTrunc q = ⌊q⌋ := by
  rw [pyTrunc, Rat.floor_def]
  exact Int.tdiv_eq_ediv (Rat.num_nonneg.2 h) (Int.ofNat_nonneg q.den)

lemma linspace_length (a b : ℚ) (n : ℕ) : (linspace a b n).length = n := by
  simp [linspace]

lemma linspace_getD (a b : ℚ) (n : ℕ) (i : ℕ) (hi : i < n) :
    (linspace a b n).getD i 0 = a + (b - a) * (i : ℚ) / ((n : ℚ) - 1) := by
  simp [linspace, List.getD_eq_getElem?_getD, List.getElem?_map,
    List.getElem?_range hi]

/-- The gap slicer, in closed form: exactly `⌊(e-s)/w⌋` equal-width windows
partitioning the whole gap linearly. -/
lemma gapNormalSegments_eq (s e : ℚ) (h : 0 ≤ e - s) :
    gapNormalSegments s e =
      (List.range (⌊(e - s) / (10000000 : ℚ)⌋.toNat)).map
        (fun k : ℕ => (s + (e - s) * (k : ℚ) / (⌊(e - s) / (10000000 : ℚ)⌋ : ℚ),
                   s + (e - s) * ((k : ℚ) + 1) / (⌊(e - s) / (10000000 : ℚ)⌋ : ℚ))) := by
  have hq : (0 : ℤ) ≤ ⌊(e - s) / (10000000 : ℚ)⌋ := by
    apply Int.floor_nonneg.2
    positivity
  have htr : pyTrunc ((e - s) / 10000000) = ⌊(e - s) / (10000000 : ℚ)⌋ :=
    pyTrunc_eq_floor (by positivity)
  set q : ℤ := ⌊(e - s) / (10000000 : ℚ)⌋ with hqdef
  simp only [gapNormalSegments, htr, linspace_length]
  have hlen : q.toNat + 1 - 1 = q.toNat := by omega
  rw [hlen]
  apply List.map_congr_left
  intro k hk
  have hk' : k < q.toNat := List.mem_range.1 hk
  have hcast : ((q.toNat + 1 : ℕ) : ℚ) - 1 = (q : ℚ) := by
    have : ((q.toNat : ℤ) : ℚ) = (q : ℚ) := by
      rw [Int.toNat_of_nonneg hq]
    push_cast at this ⊢
    linarith
  rw [linspace_getD s e _ k (by omega), linspace_getD s e _ (k + 1) (by omega),
    hcast]
  push_cast
  ring_nf

/-- Helper: truncation of an integer-valued rational is that integer. -/
lemma pyTrunc_intCast (n : ℤ) : pyTrunc (n : ℚ) = n := by
  simp [pyTrunc, Rat.num_intCast, Rat.den_intCast, Int.tdiv_one]

/-- C1 (corrected) — behaviour of the gap slicer, proved from the code:
a gap of duration `D = e - s ≥ 0` with window `w = 10 s = 10^7 µs` yields
exactly `⌊D/w⌋` normal segments, linearly partitioning the *whole* gap; and
when `w ≤ D`, every emitted window has duration exactly `D / ⌊D/w⌋ ≥ w`
(the fractional remainder is absorbed by stretching the windows, not
dropped). -/
theorem gap_slicer_stretches (s e : ℚ) (h : 0 ≤ e - s) :
    ((gapNormalSegments s e).length = ⌊(e - s) / (10000000 : ℚ)⌋.toNat)
    ∧ ((10000000 : ℚ) ≤ e - s →
        ∀ p ∈ gapNormalSegments s e,
          p.2 - p.1 = (e - s) / (⌊(e - s) / (10000000 : ℚ)⌋ : ℚ)
          ∧ (10000000 : ℚ) ≤ p.2 - p.1) := by
  have heq := gapNormalSegments_eq s e h
  constructor
  · rw [heq]; simp
  · intro hw p hp
    rw [heq] at hp
    simp only [List.mem_map, List.mem_range] at hp
    obtain ⟨k, hk, rfl⟩ := hp
    have hq1 : (1 : ℤ) ≤ ⌊(e - s) / (10000000 : ℚ)⌋ := by
      apply Int.le_floor.2
      rw [le_div_iff₀ (by norm_num)]
      push_cast
      linarith
    set q : ℤ := ⌊(e - s) / (10000000 : ℚ)⌋ with hqdef
    have hq0 : ((q : ℚ)) ≠ 0 := by
      have : (1 : ℚ) ≤ (q : ℚ) := by exact_mod_cast hq1
      linarith
    have hdur : (s + (e - s) * (k + 1) / (q : ℚ)) - (s + (e - s) * k / (q : ℚ))
        = (e - s) / (q : ℚ) := by
      field_simp
      ring
    refine ⟨hdur, ?_⟩
    rw [hdur]
    -- q ≤ D / w, hence w ≤ D / q
    have hfl : (q : ℚ) ≤ (e - s) / 10000000 := Int.floor_le _
    have hqpos : (0 : ℚ) < (q : ℚ) := by
      have : (1 : ℚ) ≤ (q : ℚ) := by exact_mod_cast hq1
      linarith
    rw [le_div_iff₀ hqpos]
    rw [le_div_iff₀ (by norm_num : (0:ℚ) < 10000000)] at hfl
    linarith

/-- C1 counterexample: a single 15-second gap (window = 10 s).  The code
emits exactly one segment — but that segment spans the *whole* 15-second
gap, so its duration (15 s) exceeds the window and the 5-second remainder
was absorbed, not dropped. -/
theorem gap_slicer_cex :
    gapNormalSegments 0 15000000 = [(0, 15000000)]
    ∧ ¬ ((15000000 : ℚ) - 0 ≤ 10000000) := by
  have hfl : ⌊((15000000 : ℚ) - 0) / (10000000 : ℚ)⌋ = 1 := by norm_num
  have h := gapNormalSegments_eq 0 15000000 (by norm_num)
  rw [hfl] at h
  constructor
  · rw [h]
    norm_num [List.range_succ]
  · norm_num

/-- Witness for `gap_slicer_stretches` at a 25-second gap. -/
theorem gap_slicer_stretches_witness :
    (gapNormalSegments 0 25000000).length = 2
    ∧ ∀ p ∈ gapNormalSegments 0 25000000,
        p.2 - p.1 = 12500000 ∧ (10000000 : ℚ) ≤ p.2 - p.1 := by
  have h := gap_slicer_stretches 0 25000000 (by norm_num)
  have hfl : ⌊((25000000 : ℚ) - 0) / (10000000 : ℚ)⌋ = 2 := by norm_num
  constructor
  · rw [h.1, hfl]
    rfl
  · intro p hp
    have h2 := h.2 (by norm_num) p hp
    rw [hfl] at h2
    norm_num at h2
    exact ⟨h2.1, h2.2⟩

lemma pyTrunc_neg (q : ℚ) : pyTrunc (-q) = -pyTrunc q := by
  simp [pyTrunc, Rat.neg_num, Rat.neg_den, Int.neg_tdiv]

lemma pyTrunc_div_nonneg_pos (num dv : ℤ) (hn : 0 ≤ num) (hd : 0 < dv) :
    pyTrunc ((num : ℚ) / (dv : ℚ)) = num.tdiv dv := by
  have hcast : ((dv.toNat : ℕ) : ℚ) = (dv : ℚ) := by
    exact_mod_cast congrArg Int.cast (Int.toNat_of_nonneg hd.le)
  have hfl : ⌊(num : ℚ) / (dv : ℚ)⌋ = num / dv := by
    rw [← hcast, Rat.floor_intCast_div_natCast, Int.toNat_of_nonneg hd.le]
  rw [pyTrunc_eq_floor (by positivity), hfl, Int.tdiv_eq_ediv hn hd.le]

lemma pyTrunc_div_pos (num dv : ℤ) (hd : 0 < dv) :
    pyTrunc ((num : ℚ) / (dv : ℚ)) = num.tdiv dv := by
  rcases le_or_lt 0 num with hn | hn
  · exact pyTrunc_div_nonneg_pos num dv hn hd
  · have hrw : (num : ℚ) / (dv : ℚ) = -(((-num : ℤ) : ℚ) / (dv : ℚ)) := by
      push_cast
      ring
    rw [hrw, pyTrunc_neg, pyTrunc_div_nonneg_pos (-num) dv (by omega) hd,
      Int.neg_tdiv, neg_neg]

/-- `int(x / y)` on integers, i.e. truncation of the exact quotient, is
T-division.  (Python computes a float quotient; we model it exactly.) -/
lemma pyTrunc_intCast_div (num dv : ℤ) :
    pyTrunc ((num : ℚ) / (dv : ℚ)) = num.tdiv dv := by
  rcases lt_trichotomy dv 0 with hd | rfl | hd
  · have hrw : (num : ℚ) / (dv : ℚ) = -((num : ℚ) / ((-dv : ℤ) : ℚ)) := by
      push_cast
      rw [div_neg, neg_neg]
    rw [hrw, pyTrunc_neg, pyTrunc_div_pos num (-dv) (by omega),
      Int.tdiv_neg, neg_neg]
  · norm_num [pyTrunc]
  · exact pyTrunc_div_pos num dv hd

/-! ## The Range Resolver: `Signal.get_data_in_range` (loader.py 139-161) -/

/-- A NumPy float64 sample value: either a finite value (modelled exactly
as a rational) or one of the non-finite values `nan`, `+inf`, `-inf`. -/
inductive NpVal : Type
  | fin (q : ℚ)
  | nan
  | pinf
  | ninf
deriving DecidableEq

/-- `np.finfo(np.float64).max = (2^53 - 1) * 2^971 ≈ 1.798e308`, the value
`np.nan_to_num` substitutes for `+inf` by default. -/
def floatMax : ℚ := (((2 ^ 53 - 1) * 2 ^ 971 : ℤ) : ℚ)

/-- `np.nan_to_num(x, nan=-99999)` on one element: `nan ↦ -99999`, and the
NumPy defaults `+inf ↦ floatMax`, `-inf ↦ -floatMax`; finite values pass
through unchanged. -/
def nanToNum : NpVal → ℚ
  | .fin q => q
  | .nan => -99999
  | .pinf => floatMax
  | .ninf => -floatMax

/-- The fields of `Signal` read by `get_data_in_range`: the per-chunk
interval array `self._intervals`, the chunk cache `self._data` (a Python
dict, insertion-ordered: key `(data_start, data_end)`, value the raw
samples), and `self._skip_empty`. -/
structure SignalCacheState : Type where
  intervals : List ℤ
  cache : List ((ℤ × ℤ) × List NpVal)
  skipEmpty : Bool

/-- Exceptions `get_data_in_range` can raise: `EmptySegment`, or a Python
`IndexError` from `self._intervals[0]` on an empty index. -/
inductive GetErr : Type
  | emptySegment
  | indexError
deriving DecidableEq

deriving instance DecidableEq for Except

/-- One slice of the comprehension in `get_data_in_range`:
`data_slice[max(0, int((start_time - data_start) / self._intervals[0])) :
            min(data_slice.shape[0], int((end_time - data_start) / self._intervals[0]))]`.
Note the code uses `self._intervals[0]` — the FIRST chunk's interval — for
every chunk. -/
def sliceChunk (iv : ℤ) (st et : ℤ) (c : (ℤ × ℤ) × List NpVal) : List NpVal :=
  pySlice c.2 (max 0 (pyTrunc (((st - c.1.1 : ℤ) : ℚ) / ((iv : ℤ) : ℚ))))
    (min (c.2.length : ℤ) (pyTrunc (((et - c.1.1 : ℤ) : ℚ) / ((iv : ℤ) : ℚ))))

/-- `Signal.get_data_in_range` (loader.py 139-161).  Returns the value of
`segment.empty` after the call together with the returned sample array, or
the exception raised.  The comprehension keeps chunks with
`data_start <= end_time and data_end >= start_time`, in dict insertion
order; `segment.empty = not bool(result_data)`; an empty result raises
`EmptySegment` unless `skip_empty`; otherwise the slices are concatenated
and sanitized by `np.nan_to_num(·, nan=-99999)`. -/
def getDataInRange (σ : SignalCacheState) (st et : ℤ) :
    Except GetErr (Bool × List ℚ) :=
  let rd := σ.cache.filter (fun c => decide (c.1.1 ≤ et ∧ st ≤ c.1.2))
  if rd.isEmpty then
    if σ.skipEmpty then .ok (true, []) else .error .emptySegment
  else
    match σ.intervals with
    | [] => .error .indexError
    | iv :: _ => .ok (false, ((rd.map (sliceChunk iv st et)).flatten).map nanToNum)

/-- `sliceChunk` with the float-division/truncation rewritten to exact
T-division, for concrete evaluation. -/
lemma sliceChunk_tdiv (iv : ℤ) (st et : ℤ) (c : (ℤ × ℤ) × List NpVal) :
    sliceChunk iv st et c =
      pySlice c.2 (max 0 ((st - c.1.1).tdiv iv))
        (min (c.2.length : ℤ) ((et - c.1.1).tdiv iv)) := by
  rw [sliceChunk, pyTrunc_intCast_div, pyTrunc_intCast_div]

/-- Function form of `sliceChunk_tdiv`, usable under `List.map`. -/
lemma sliceChunk_fun (iv : ℤ) (st et : ℤ) :
    sliceChunk iv st et = fun c =>
      pySlice c.2 (max 0 ((st - c.1.1).tdiv iv))
        (min (c.2.length : ℤ) ((et - c.1.1).tdiv iv)) :=
  funext (sliceChunk_tdiv iv st et)

/-- The overlap test of the comprehension, as a proposition:
`data_start <= end_time and data_end >= start_time`. -/
def chunkOverlaps (st et : ℤ) (c : (ℤ × ℤ) × List NpVal) : Prop :=
  c.1.1 ≤ et ∧ st ≤ c.1.2

instance (st et : ℤ) (c : (ℤ × ℤ) × List NpVal) :
    Decidable (chunkOverlaps st et c) := by
  unfold chunkOverlaps
  infer_instance

lemma getDataInRange_filter_nil_iff (σ : SignalCacheState) (st et : ℤ) :
    σ.cache.filter (fun c => decide (c.1.1 ≤ et ∧ st ≤ c.1.2)) = []
      ↔ ∀ c ∈ σ.cache, ¬ chunkOverlaps st et c := by
  rw [List.filter_eq_nil_iff]
  constructor
  · intro h c hc
    have := h c hc
    simpa [chunkOverlaps] using this
  · intro h c hc
    have := h c hc
    simpa [chunkOverlaps] using this

/-- `getDataInRange`, unfolded with the emptiness test as a proposition. -/
lemma getDataInRange_eq (σ : SignalCacheState) (st et : ℤ) :
    getDataInRange σ st et =
      if σ.cache.filter (fun c => decide (c.1.1 ≤ et ∧ st ≤ c.1.2)) = [] then
        (if σ.skipEmpty then .ok (true, []) else .error .emptySegment)
      else
        match σ.intervals with
        | [] => .error .indexError
        | iv :: _ =>
            .ok (false,
              (((σ.cache.filter (fun c => decide (c.1.1 ≤ et ∧ st ≤ c.1.2))).map
                  (sliceChunk iv st et)).flatten).map nanToNum) := by
  simp only [getDataInRange, List.isEmpty_eq_true]

/-- C7 (confirmed): after `get_data_in_range`, the segment is marked empty
exactly when no cached chunk overlaps the requested range; an empty
segment raises `EmptySegment` iff `skip_empty` is false, and is tolerated
(empty array returned) iff `skip_empty` is true. -/
theorem empty_segment_policy (σ : SignalCacheState) (st et : ℤ) :
    (getDataInRange σ st et = .error .emptySegment ↔
      ((∀ c ∈ σ.cache, ¬ chunkOverlaps st et c) ∧ σ.skipEmpty = false))
    ∧ ((∀ c ∈ σ.cache, ¬ chunkOverlaps st et c) → σ.skipEmpty = true →
        getDataInRange σ st et = .ok (true, []))
    ∧ (∀ b d, getDataInRange σ st et = .ok (b, d) →
        (b = true ↔ ∀ c ∈ σ.cache, ¬ chunkOverlaps st et c)) := by
  have hiff := getDataInRange_filter_nil_iff σ st et
  rw [getDataInRange_eq]
  by_cases hnil : σ.cache.filter (fun c => decide (c.1.1 ≤ et ∧ st ≤ c.1.2)) = []
  · have hno : ∀ c ∈ σ.cache, ¬ chunkOverlaps st et c := hiff.1 hnil
    rw [if_pos hnil]
    cases hskip : σ.skipEmpty
    · refine ⟨⟨fun _ => ⟨hno, rfl⟩, fun _ => rfl⟩, ?_, ?_⟩
      · intro _ hcontra
        cases hcontra
      · intro b d hbd
        exact Except.noConfusion hbd
    · rw [if_pos (by trivial)]
      refine ⟨⟨fun h => Except.noConfusion h, fun hx => ?_⟩, fun _ _ => rfl, ?_⟩
      · cases hx.2
      · intro b d hbd
        simp only [Except.ok.injEq, Prod.mk.injEq] at hbd
        exact ⟨fun _ => hno, fun _ => hbd.1.symm⟩
  · have hex : ¬ ∀ c ∈ σ.cache, ¬ chunkOverlaps st et c := fun h => hnil (hiff.2 h)
    rw [if_neg hnil]
    cases hint : σ.intervals with
    | nil =>
        refine ⟨⟨fun h => ?_, fun hx => absurd hx.1 hex⟩,
          fun h _ => absurd h hex, fun b d hbd => Except.noConfusion hbd⟩
        injection h with h2
        cases h2
    | cons iv rest =>
        refine ⟨⟨fun h => Except.noConfusion h, fun hx => absurd hx.1 hex⟩,
          fun h _ => absurd h hex, ?_⟩
        intro b d hbd
        simp only [Except.ok.injEq, Prod.mk.injEq] at hbd
        refine ⟨fun hb => ?_, fun hall => absurd hall hex⟩
        rw [← hbd.1] at hb
        cases hb

/-- Witness for `empty_segment_policy`: a cache whose single chunk lies
entirely after the requested range, with `skip_empty = true`. -/
theorem empty_segment_policy_witness :
    getDataInRange ⟨[100], [((50, 60), [NpVal.fin 7])], true⟩ 0 10
      = .ok (true, []) := by
  apply (empty_segment_policy ⟨[100], [((50, 60), [NpVal.fin 7])], true⟩ 0 10).2.1
  · intro c hc
    simp only [List.mem_singleton] at hc
    subst hc
    simp [chunkOverlaps]
  · rfl

lemma pySlice_subset {α : Type} (l : List α) (i j : ℤ) :
    ∀ x ∈ pySlice l i j, x ∈ l := by
  intro x hx
  simp only [pySlice] at hx
  exact List.take_subset _ _ (List.drop_subset _ _ hx)

/-- Every sample returned by `get_data_in_range` is the sanitized image of
a sample of some cached chunk overlapping the requested range. -/
lemma getDataInRange_mem (σ : SignalCacheState) (st et : ℤ) (b : Bool)
    (d : List ℚ) (h : getDataInRange σ st et = .ok (b, d)) :
    ∀ x ∈ d, ∃ c, c ∈ σ.cache ∧ chunkOverlaps st et c ∧
      ∃ v ∈ c.2, nanToNum v = x := by
  rw [getDataInRange_eq] at h
  by_cases hnil : σ.cache.filter (fun c => decide (c.1.1 ≤ et ∧ st ≤ c.1.2)) = []
  · rw [if_pos hnil] at h
    cases hskip : σ.skipEmpty
    · rw [hskip, if_neg (by simp)] at h
      exact Except.noConfusion h
    · rw [hskip, if_pos (by trivial)] at h
      simp only [Except.ok.injEq, Prod.mk.injEq] at h
      rw [← h.2]
      intro x hx
      cases hx
  · rw [if_neg hnil] at h
    cases hint : σ.intervals with
    | nil =>
        rw [hint] at h
        exact Except.noConfusion h
    | cons iv rest =>
        rw [hint] at h
        simp only [Except.ok.injEq, Prod.mk.injEq] at h
        intro x hx
        rw [← h.2] at hx
        obtain ⟨v, hvmem, hvx⟩ := List.mem_map.1 hx
        obtain ⟨sl, hslmem, hvsl⟩ := List.mem_flatten.1 hvmem
        obtain ⟨c, hcmem, hslc⟩ := List.mem_map.1 hslmem
        have hcache : c ∈ σ.cache := List.mem_of_mem_filter hcmem
        have hov : chunkOverlaps st et c := by
          have := List.of_mem_filter hcmem
          simpa [chunkOverlaps] using this
        refine ⟨c, hcache, hov, v, ?_, hvx⟩
        rw [← hslc] at hvsl
        exact pySlice_subset _ _ _ v hvsl

/-- C8 (corrected): sanitization of the resolved samples.  Every output
value is either a finite input sample of an overlapping cached chunk, or
one of the three values `np.nan_to_num(·, nan=-99999)` substitutes:
`-99999` for NaN, `floatMax` for `+inf`, `-floatMax` for `-inf`.  The
output therefore never contains a non-finite value, but infinities are
*not* replaced by the `-99999` sentinel. -/
theorem sanitize_values (σ : SignalCacheState) (st et : ℤ) (b : Bool)
    (d : List ℚ) (h : getDataInRange σ st et = .ok (b, d)) :
    ∀ x ∈ d,
      (∃ c ∈ σ.cache, chunkOverlaps st et c ∧ NpVal.fin x ∈ c.2)
      ∨ x = -99999 ∨ x = floatMax ∨ x = -floatMax := by
  intro x hx
  obtain ⟨c, hc, hov, v, hv, hnv⟩ := getDataInRange_mem σ st et b d h x hx
  cases v with
  | fin q =>
      left
      refine ⟨c, hc, hov, ?_⟩
      have : q = x := hnv
      rw [← this]
      exact hv
  | nan => right; left; exact hnv.symm
  | pinf => right; right; left; exact hnv.symm
  | ninf => right; right; right; exact hnv.symm

/-- C8 counterexample: a cached chunk containing `+inf`, NaN and `-inf`.
The returned array is `[floatMax, -99999, -floatMax]`: only NaN becomes the
sentinel; the infinities become `±floatMax ≠ -99999`. -/
theorem sanitize_values_cex :
    getDataInRange
        ⟨[10000], [((0, 30000), [NpVal.pinf, NpVal.nan, NpVal.ninf])], true⟩
        0 30000
      = .ok (false, [floatMax, -99999, -floatMax])
    ∧ floatMax ≠ (-99999 : ℚ) ∧ -floatMax ≠ (-99999 : ℚ) := by
  refine ⟨?_, by norm_num [floatMax], by norm_num [floatMax]⟩
  rw [getDataInRange_eq, if_neg (by decide)]
  simp only [sliceChunk_fun]
  rfl

/-- Witness for `sanitize_values` on a finite sample. -/
theorem sanitize_values_witness :
    (∃ c ∈ [(((0 : ℤ), (10000 : ℤ)), [NpVal.fin 7])],
        chunkOverlaps 0 10000 c ∧ NpVal.fin (7 : ℚ) ∈ c.2)
    ∨ (7 : ℚ) = -99999 ∨ (7 : ℚ) = floatMax ∨ (7 : ℚ) = -floatMax := by
  apply sanitize_values ⟨[10000], [((0, 10000), [NpVal.fin 7])], true⟩ 0 10000
      false [7]
  · rw [getDataInRange_eq, if_neg (by decide)]
    simp only [sliceChunk_fun]
    rfl
  · simp

/-- C2 (corrected): resolution of a range lying inside a single cached
chunk.  The chunk is sliced with `self._intervals[0]` — here equal to the
chunk's own interval because the cache has a single chunk — and for
*grid-aligned* endpoints `start = data_start + a·iv`, `end = data_start + b·iv`
with `iv · frequency = 10^6`, the result is exactly the sub-slice
`data[a:b]`: its length equals `round(range_duration_s × frequency)`, and
if the chunk's data is finite and free of the sentinel, no sentinel value
appears in the output. -/
theorem resolve_inside_chunk (iv : ℤ) (hiv : 0 < iv) (dstart : ℤ)
    (data : List NpVal) (a b : ℕ) (hab : a ≤ b) (hbl : b ≤ data.length)
    (freq : ℚ) (hf : (iv : ℚ) * freq = 1000000) (skip : Bool) :
    getDataInRange ⟨[iv], [((dstart, dstart + data.length * iv), data)], skip⟩
        (dstart + a * iv) (dstart + b * iv)
      = .ok (false, ((data.take b).drop a).map nanToNum)
    ∧ (((data.take b).drop a).map nanToNum).length = b - a
    ∧ round ((((dstart + b * iv) - (dstart + a * iv) : ℤ) : ℚ) / 1000000 * freq)
        = (b : ℤ) - (a : ℤ)
    ∧ ((∀ v ∈ data, ∃ q, v = NpVal.fin q ∧ q ≠ (-99999 : ℚ)) →
        (-99999 : ℚ) ∉ ((data.take b).drop a).map nanToNum) := by
  have hlen : (a : ℤ) ≤ (data.length : ℤ) := by exact_mod_cast le_trans hab hbl
  have hfilter :
      (List.filter (fun c => decide (c.1.1 ≤ dstart + b * iv ∧ dstart + a * iv ≤ c.1.2))
          [((dstart, dstart + data.length * iv), data)])
        = [((dstart, dstart + data.length * iv), data)] := by
    simp only [List.filter_cons, List.filter_nil, decide_eq_true_eq]
    rw [if_pos]
    constructor
    · have : (0 : ℤ) ≤ (b : ℤ) * iv := by positivity
      linarith
    · have : (a : ℤ) * iv ≤ (data.length : ℤ) * iv :=
        mul_le_mul_of_nonneg_right hlen hiv.le
      linarith
  refine ⟨?_, ?_, ?_, ?_⟩
  · rw [getDataInRange_eq]
    rw [if_neg (by rw [hfilter]; exact List.cons_ne_nil _ _)]
    simp only [sliceChunk_fun, hfilter]
    simp only [List.map_cons, List.map_nil, List.flatten_cons, List.flatten_nil,
      List.append_nil]
    have h1 : dstart + a * iv - dstart = (a : ℤ) * iv := by ring
    have h2 : dstart + b * iv - dstart = (b : ℤ) * iv := by ring
    rw [h1, h2, Int.mul_tdiv_cancel _ hiv.ne', Int.mul_tdiv_cancel _ hiv.ne']
    rw [max_eq_right (by positivity), min_eq_right (by exact_mod_cast hbl)]
    simp only [pySlice]
    rw [if_neg (by omega), if_neg (by omega)]
    simp
  · simp only [List.length_map, List.length_drop, List.length_take]
    omega
  · have hdur : (((dstart + b * iv) - (dstart + a * iv) : ℤ) : ℚ)
        = ((b : ℚ) - (a : ℚ)) * (iv : ℚ) := by
      push_cast
      ring
    rw [hdur]
    have : ((b : ℚ) - (a : ℚ)) * (iv : ℚ) / 1000000 * freq
        = ((b : ℚ) - (a : ℚ)) := by
      rw [div_mul_eq_mul_div, mul_assoc, hf]
      norm_num
    rw [this]
    have hcast : ((b : ℚ) - (a : ℚ)) = (((b : ℤ) - (a : ℤ) : ℤ) : ℚ) := by
      push_cast
      ring
    rw [hcast, round_intCast]
  · intro hfin hmem
    obtain ⟨v, hv, hnv⟩ := List.mem_map.1 hmem
    have hvdata : v ∈ data := List.take_subset _ _ (List.drop_subset _ _ hv)
    obtain ⟨q, rfl, hq⟩ := hfin v hvdata
    exact hq hnv

/-- C2 counterexample: a 2 µs range `[9999, 10001]` strictly inside the
single cached chunk `[0, 20000]` (frequency 100 Hz, interval 10000 µs).
`round(range_duration_s × frequency) = round(0.0002) = 0`, but the code
returns 1 sample. -/
theorem resolve_inside_chunk_cex :
    getDataInRange ⟨[10000], [((0, 20000), [NpVal.fin 1, NpVal.fin 2])], true⟩
        9999 10001
      = .ok (false, [(1 : ℚ)])
    ∧ round ((((10001 : ℤ) - 9999 : ℤ) : ℚ) / 1000000 * 100) = 0
    ∧ ((0 : ℤ) ≤ 9999 ∧ (10001 : ℤ) ≤ 20000)
    ∧ ([(1 : ℚ)].length : ℤ) ≠ 0 := by
  refine ⟨?_, ?_, by norm_num, by norm_num⟩
  · rw [getDataInRange_eq, if_neg (by decide)]
    simp only [sliceChunk_fun]
    rfl
  · rw [round_eq]
    norm_num

/-- Witness for `resolve_inside_chunk`: the whole single chunk, 100 Hz. -/
theorem resolve_inside_chunk_witness :
    getDataInRange ⟨[10000], [((0, 20000), [NpVal.fin 1, NpVal.fin 2])], true⟩
        0 20000
      = .ok (false, [(1 : ℚ), 2])
    ∧ round (((20000 : ℤ) - 0 : ℚ) / 1000000 * 100) = 2 := by
  have h := resolve_inside_chunk 10000 (by norm_num) 0
      [NpVal.fin 1, NpVal.fin 2] 0 2 (by norm_num) (by norm_num)
      100 (by norm_num) true
  constructor
  · have h1 := h.1
    norm_num at h1
    convert h1 using 2
  · have h3 := h.2.2.1
    norm_num at h3 ⊢

/-- Ordering of cached chunks by start time (used to state what "time
order" means for the concatenation). -/
def chunkLE (c₁ c₂ : (ℤ × ℤ) × List NpVal) : Prop := c₁.1.1 ≤ c₂.1.1

instance : DecidableRel chunkLE := fun c₁ c₂ => by
  unfold chunkLE
  infer_instance

/-- Modelled from the spec: "slice to the exact sub-range …, then
concatenate slices from all overlapping chunks in time order" — the same
resolver, but run over the cache sorted by chunk start time. -/
def getDataInRangeTimeOrdered (σ : SignalCacheState) (st et : ℤ) :
    Except GetErr (Bool × List ℚ) :=
  getDataInRange ⟨σ.intervals, σ.cache.insertionSort chunkLE, σ.skipEmpty⟩ st et

/-- C3 (corrected): resolution returns only samples actually covered by an
overlapping cached chunk (no fabricated values), but the slices are
concatenated in the *cache insertion order*, which coincides with
ascending time order exactly when the cache was populated in ascending
chunk start-time order. -/
theorem resolve_concat_order (σ : SignalCacheState) (st et : ℤ) :
    (∀ b d, getDataInRange σ st et = .ok (b, d) →
      (∀ c ∈ σ.cache, ∀ v ∈ c.2, ∃ q, v = NpVal.fin q) →
      ∀ x ∈ d, ∃ c ∈ σ.cache, chunkOverlaps st et c ∧ NpVal.fin x ∈ c.2)
    ∧ (σ.cache.Sorted chunkLE →
        getDataInRange σ st et = getDataInRangeTimeOrdered σ st et) := by
  constructor
  · intro b d h hfin x hx
    obtain ⟨c, hc, hov, v, hv, hnv⟩ := getDataInRange_mem σ st et b d h x hx
    obtain ⟨q, rfl⟩ := hfin c hc v hv
    have : q = x := hnv
    exact ⟨c, hc, hov, this ▸ hv⟩
  · intro hsorted
    rw [getDataInRangeTimeOrdered, List.Sorted.insertionSort_eq hsorted]

/-- C3 counterexample: the cache holds the later chunk `[100, 200]`
(sample 5) *before* the earlier chunk `[0, 100]` (sample 3).  Resolving
`[0, 200]` returns `[5, 3]` — insertion order — while the time-ordered
result would be `[3, 5]`. -/
theorem resolve_concat_order_cex :
    getDataInRange
        ⟨[100], [((100, 200), [NpVal.fin 5]), ((0, 100), [NpVal.fin 3])], true⟩
        0 200
      = .ok (false, [(5 : ℚ), 3])
    ∧ getDataInRangeTimeOrdered
        ⟨[100], [((100, 200), [NpVal.fin 5]), ((0, 100), [NpVal.fin 3])], true⟩
        0 200
      = .ok (false, [(3 : ℚ), 5])
    ∧ ([(5 : ℚ), 3]) ≠ ([(3 : ℚ), 5]) := by
  refine ⟨?_, ?_, by decide⟩
  · rw [getDataInRange_eq, if_neg (by decide)]
    simp only [sliceChunk_fun]
    rfl
  · rw [getDataInRangeTimeOrdered]
    rw [show (List.insertionSort chunkLE
        [((100, 200), [NpVal.fin 5]), (((0 : ℤ), (100 : ℤ)), [NpVal.fin 3])])
      = [((0, 100), [NpVal.fin 3]), ((100, 200), [NpVal.fin 5])] from by
        simp [List.insertionSort, List.orderedInsert, chunkLE]]
    rw [getDataInRange_eq, if_neg (by decide)]
    simp only [sliceChunk_fun]
    rfl

/-- Witness for `resolve_concat_order`: a two-chunk cache populated in
ascending time order; the code result and the time-ordered result agree. -/
theorem resolve_concat_order_witness :
    getDataInRange
        ⟨[100], [((0, 100), [NpVal.fin 3]), ((100, 200), [NpVal.fin 5])], true⟩
        0 200
      = getDataInRangeTimeOrdered
          ⟨[100], [((0, 100), [NpVal.fin 3]), ((100, 200), [NpVal.fin 5])], true⟩
          0 200 := by
  apply (resolve_concat_order
      ⟨[100], [((0, 100), [NpVal.fin 3]), ((100, 200), [NpVal.fin 5])], true⟩
      0 200).2
  show List.Pairwise chunkLE _
  decide

/-! ## The Sample Index: `Signal._load_index_data` (loader.py 86-104) -/

/-- One entry of the per-channel sample index, i.e.
`dict(zip(["startidx", "starttime", "length", "frequency"], item))`. -/
structure IndexEntry : Type where
  startidx : ℤ
  starttime : ℤ
  length : ℤ
  frequency : ℚ
deriving DecidableEq

/-- The channels of an HDF5 file relevant to `Signal._load_index_data`:
for each of `waves/art`, `waves/abp`, `waves/icp`, optionally the
channel's index entries (whether from `waves/{mode}.index` or from the
dataset's `index` attribute).  `hdf.get("waves/art")` is truthy exactly
when the `art` channel is present. -/
structure H5File : Type where
  art : Option (List IndexEntry)
  abp : Option (List IndexEntry)
  icp : Option (List IndexEntry)
deriving DecidableEq

def H5File.channel (f : H5File) (m : String) : Option (List IndexEntry) :=
  if m = "art" then f.art
  else if m = "abp" then f.abp
  else if m = "icp" then f.icp
  else none

/-- The mode rewriting in `Signal._load_index_data` (loader.py 94-95):
`if self._mode == "abp" and hdf.get(f"waves/art"): self._mode = "art"`. -/
def resolveMode (f : H5File) (mode : String) : String :=
  if mode = "abp" ∧ f.art.isSome then "art" else mode

/-- `Signal._load_index_data` (loader.py 92-104): rewrite the mode, then
read the resolved channel's index; a missing channel raises (KeyError),
modelled as `.error ()`. -/
def loadIndexData (f : H5File) (mode : String) :
    Except Unit (String × List IndexEntry) :=
  match f.channel (resolveMode f mode) with
  | some d => .ok (resolveMode f mode, d)
  | none => .error ()

/-- C5 (corrected): in mode `"abp"`, the fallback substitution to `"art"`
happens exactly when the channel `art` is *present* — regardless of
whether `abp` is present.  When `art` is present its index is loaded
(even if `abp` is also present); only when `art` is absent is the index
loaded from `abp`. -/
theorem abp_art_fallback (f : H5File) :
    (resolveMode f "abp" = "art" ↔ f.art.isSome = true)
    ∧ (∀ d, f.art = some d → loadIndexData f "abp" = .ok ("art", d))
    ∧ (f.art = none → ∀ d, f.abp = some d →
        loadIndexData f "abp" = .ok ("abp", d)) := by
  refine ⟨?_, ?_, ?_⟩
  · cases hart : f.art with
    | some d => simp [resolveMode, hart]
    | none => simp [resolveMode, hart]
  · intro d hart
    simp [loadIndexData, resolveMode, hart, H5File.channel]
  · intro hart d habp
    simp [loadIndexData, resolveMode, hart, H5File.channel, habp]

/-- C5 counterexample: a file with BOTH `art` and `abp` present.  Opened
in mode `"abp"`, the code substitutes `"art"` and loads the `art` index,
although the preferred channel `abp` is present. -/
theorem abp_art_fallback_cex :
    loadIndexData
        ⟨some [⟨0, 0, 5, 100⟩], some [⟨0, 0, 7, 200⟩], none⟩ "abp"
      = .ok ("art", [⟨0, 0, 5, 100⟩])
    ∧ (⟨some [⟨0, 0, 5, 100⟩], some [⟨0, 0, 7, 200⟩], none⟩ :
        H5File).abp.isSome = true := by
  constructor
  · rfl
  · rfl

/-- Witness for `abp_art_fallback`: substitution with `abp` absent, and
the `abp` path with `art` absent. -/
theorem abp_art_fallback_witness :
    loadIndexData ⟨some [⟨0, 0, 5, 100⟩], none, none⟩ "abp"
      = .ok ("art", [⟨0, 0, 5, 100⟩])
    ∧ loadIndexData ⟨none, some [⟨0, 0, 7, 200⟩], none⟩ "abp"
      = .ok ("abp", [⟨0, 0, 7, 200⟩]) :=
  ⟨(abp_art_fallback ⟨some [⟨0, 0, 5, 100⟩], none, none⟩).2.1
      [⟨0, 0, 5, 100⟩] rfl,
   (abp_art_fallback ⟨none, some [⟨0, 0, 7, 200⟩], none⟩).2.2
      rfl [⟨0, 0, 7, 200⟩] rfl⟩

/-! ## Segments, the Matching Policy, and the Folder Aggregator -/

/-- The `Segment` dataclass (loader.py 35-54).  Times are Unix µs; the
segmenter stores `np.linspace` floats into them, so both are `ℚ` here.
`data` holds the sanitized samples. -/
structure Segment : Type where
  start_time : ℚ
  end_time : ℚ
  empty : Bool
  file : String
  patient_id : String
  frequency : ℚ
  data : List ℚ
deriving DecidableEq

/-- `SingleFileExtractor._extract_matching` (loader.py 256-259):
`normal_segments[:len(anomalous_segments) * self._matching_multiplier]`. -/
def matchingPolicy (anomalies normals : List Segment) (multiplier : ℕ) :
    List Segment :=
  normals.take (anomalies.length * multiplier)

/-- C9 (confirmed): the matching policy returns exactly the prefix of the
normal list up to `len(anomalies) * multiplier` — re-appending the dropped
suffix restores the whole list — so its length is
`min (len A * k) (len N)`, and in particular never exceeds `len A * k`
(with no guarantee of equality when fewer normal segments exist). -/
theorem matching_policy_bound (A N : List Segment) (k : ℕ) :
    matchingPolicy A N k ++ N.drop (A.length * k) = N
    ∧ (matchingPolicy A N k).length = min (A.length * k) N.length
    ∧ (matchingPolicy A N k).length ≤ A.length * k := by
  refine ⟨List.take_append_drop _ _, List.length_take _ _, ?_⟩
  rw [matchingPolicy, List.length_take]
  exact min_le_left _ _

/-- The per-file outcome of `SingleFileExtractor` as consumed by
`FolderExtractor.extract_all` (loader.py 395-400): the file's anomalous
and normal segments (`get_anomalies`, `get_normal`) and its resolved
frequency (`get_frequency`; 0.0 when the file produced no segments). -/
structure FileResult : Type where
  anomalies : List Segment
  normal : List Segment
  frequency : ℚ
deriving DecidableEq

/-- `FolderExtractor.extract_all` (loader.py 373-405), over the matched
`(hdf5, artf)` pairs of the folder walk in walk order: extend the anomaly
and normal lists with each file's results, add each non-zero (truthy)
frequency to a set, and finally raise `FrequencyMismatchError` — carrying
the set, whose values the message names — when the set has more than one
element. -/
def extractAllFolder (files : List FileResult) :
    Except (Finset ℚ) (List Segment × List Segment) :=
  let final := files.foldl
    (fun (acc : List Segment × List Segment × Finset ℚ) fr =>
      (acc.1 ++ fr.anomalies, acc.2.1 ++ fr.normal,
        if fr.frequency ≠ 0 then insert fr.frequency acc.2.2 else acc.2.2))
    ([], [], ∅)
  if 1 < final.2.2.card then .error final.2.2
  else .ok (final.1, final.2.1)

lemma extractAllFolder_fold (files : List FileResult)
    (acc : List Segment × List Segment × Finset ℚ) :
    files.foldl
      (fun (acc : List Segment × List Segment × Finset ℚ) fr =>
        (acc.1 ++ fr.anomalies, acc.2.1 ++ fr.normal,
          if fr.frequency ≠ 0 then insert fr.frequency acc.2.2 else acc.2.2))
      acc
    = (acc.1 ++ (files.map FileResult.anomalies).flatten,
       acc.2.1 ++ (files.map FileResult.normal).flatten,
       acc.2.2 ∪ ((files.map FileResult.frequency).filter
          (fun q => decide (q ≠ 0))).toFinset) := by
  induction files generalizing acc with
  | nil => simp
  | cons fr rest ih =>
      simp only [List.foldl_cons, List.map_cons, List.flatten_cons,
        List.filter_cons]
      rw [ih]
      rcases eq_or_ne fr.frequency 0 with hfr | hfr
      · rw [if_neg (by simp [hfr]), if_neg (by simp [hfr])]
        simp
      · rw [if_pos hfr, if_pos (by simp [hfr]), List.toFinset_cons]
        simp only [Prod.mk.injEq]
        refine ⟨by simp, by simp, ?_⟩
        rw [Finset.union_insert, Finset.insert_union]

/-- C6 (confirmed): the folder-level frequency invariant.  If two distinct
non-zero resolved frequencies occur among the files, the whole aggregation
fails with `FrequencyMismatchError` carrying (naming) both values and no
segment lists are returned; if every file reports the same frequency, the
result is exactly the concatenation of each matched file's individual
anomaly and normal lists, in walk order. -/
theorem folder_frequency_invariant (files : List FileResult) :
    (∀ f1 f2 : ℚ, f1 ∈ files.map FileResult.frequency →
      f2 ∈ files.map FileResult.frequency → f1 ≠ 0 → f2 ≠ 0 → f1 ≠ f2 →
      ∃ S : Finset ℚ, extractAllFolder files = .error S ∧ f1 ∈ S ∧ f2 ∈ S)
    ∧ (∀ f0 : ℚ, (∀ fr ∈ files, fr.frequency = f0) →
        extractAllFolder files
          = .ok ((files.map FileResult.anomalies).flatten,
                 (files.map FileResult.normal).flatten)) := by
  have hrun : extractAllFolder files
      = (if 1 < (((files.map FileResult.frequency).filter
            (fun q => decide (q ≠ 0))).toFinset).card then
          .error ((files.map FileResult.frequency).filter
            (fun q => decide (q ≠ 0))).toFinset
        else .ok ((files.map FileResult.anomalies).flatten,
                  (files.map FileResult.normal).flatten)) := by
    rw [extractAllFolder, extractAllFolder_fold]
    simp
  constructor
  · intro f1 f2 h1 h2 hn1 hn2 hne
    have hm1 : f1 ∈ ((files.map FileResult.frequency).filter
        (fun q => decide (q ≠ 0))).toFinset := by
      rw [List.mem_toFinset, List.mem_filter]
      exact ⟨h1, by simp [hn1]⟩
    have hm2 : f2 ∈ ((files.map FileResult.frequency).filter
        (fun q => decide (q ≠ 0))).toFinset := by
      rw [List.mem_toFinset, List.mem_filter]
      exact ⟨h2, by simp [hn2]⟩
    have hcard : 1 < (((files.map FileResult.frequency).filter
        (fun q => decide (q ≠ 0))).toFinset).card :=
      Finset.one_lt_card.2 ⟨f1, hm1, f2, hm2, hne⟩
    refine ⟨_, ?_, hm1, hm2⟩
    rw [hrun, if_pos hcard]
  · intro f0 hall
    have hsub : ((files.map FileResult.frequency).filter
        (fun q => decide (q ≠ 0))).toFinset ⊆ {f0} := by
      intro x hx
      rw [List.mem_toFinset, List.mem_filter] at hx
      obtain ⟨fr, hfr, rfl⟩ := List.mem_map.1 hx.1
      rw [hall fr hfr]
      exact Finset.mem_singleton_self f0
    have hcard : ¬ 1 < (((files.map FileResult.frequency).filter
        (fun q => decide (q ≠ 0))).toFinset).card := by
      have := Finset.card_le_card hsub
      simp only [Finset.card_singleton] at this
      omega
    rw [hrun, if_neg hcard]

/-- Witness for `folder_frequency_invariant`: two files at 100 Hz vs
200 Hz abort with both values named; two files agreeing at 100 Hz return
the concatenated segment lists. -/
theorem folder_frequency_invariant_witness :
    (∃ S : Finset ℚ,
      extractAllFolder [⟨[], [], 100⟩, ⟨[], [], 200⟩] = .error S
      ∧ (100 : ℚ) ∈ S ∧ (200 : ℚ) ∈ S)
    ∧ extractAllFolder
        [⟨[⟨0, 1, true, "f", "p", 100, []⟩], [], 100⟩, ⟨[], [], 100⟩]
      = .ok ([⟨0, 1, true, "f", "p", 100, []⟩], []) := by
  constructor
  · exact (folder_frequency_invariant [⟨[], [], 100⟩, ⟨[], [], 200⟩]).1
      100 200 (by simp) (by simp) (by norm_num) (by norm_num) (by norm_num)
  · have h := (folder_frequency_invariant
      [⟨[⟨0, 1, true, "f", "p", 100, []⟩], [], 100⟩, ⟨[], [], 100⟩]).2
      100 (by
        intro fr hfr
        simp only [List.mem_cons, List.not_mem_nil, or_false] at hfr
        rcases hfr with rfl | rfl <;> rfl)
    simpa using h

/-! ## Batch materialization: `Signal.prepare_data_for_segments`
(loader.py 109-137) -/

/-- `np.searchsorted(a, v, side="right")` on a sorted array: the number
of elements `≤ v` (binary search agrees with this count on sorted
input). -/
def ssRight (times : List ℤ) (x : ℤ) : ℕ :=
  times.countP (fun t => decide (t ≤ x))

/-- `np.searchsorted(a, v, side="left")` on a sorted array: the number of
elements `< v`. -/
def ssLeft (times : List ℤ) (x : ℤ) : ℕ :=
  times.countP (fun t => decide (t < x))

/-- Python `range(a, b)` over integers. -/
def intRange (a b : ℤ) : List ℤ :=
  (List.range (b - a).toNat).map (fun k => a + k)

/-- The parallel arrays `Signal.__init__` builds from the index
(loader.py 77-83): `_start_times`, `_frequencies`, `_lengths` and the
`startidx` column of `_index_data`. -/
structure SignalIndex : Type where
  startTimes : List ℤ
  frequencies : List ℚ
  lengths : List ℤ
  startidxs : List ℤ

/-- `self._intervals = (1_000_000 / self._frequencies).astype(np.int64)`
(loader.py 83): float division truncated toward zero per element. -/
def SignalIndex.intervals (si : SignalIndex) : List ℤ :=
  si.frequencies.map (fun f => pyTrunc (1000000 / f))

/-- Failures of `prepare_data_for_segments`: Python's
`UnboundLocalError` (reading `idx` before any loop iteration assigned
it) or an `IndexError` from array indexing. -/
inductive PrepErr : Type
  | unbound
  | indexError
deriving DecidableEq

/-- The body of the inner chunk loop (loader.py 124-133): compute the
cache key `(data_range_start, data_range_end)` for chunk `idx` and, if it
is not cached yet, append the chunk's raw slice
`all_data[startidx : startidx + length]`. -/
def cacheStep (si : SignalIndex) (allData : List NpVal)
    (cache : List ((ℤ × ℤ) × List NpVal)) (idx : ℤ) :
    Except PrepErr (List ((ℤ × ℤ) × List NpVal)) :=
  match pyGet si.startTimes idx, pyGet si.lengths idx,
      pyGet si.intervals idx, pyGet si.startidxs idx with
  | some s, some len, some iv, some sidx =>
      let key := (s, s + len * iv)
      if cache.any (fun e => decide (e.1 = key)) then .ok cache
      else .ok (cache ++ [(key, pySlice allData sidx (sidx + len))])
  | _, _, _, _ => .error .indexError

/-- One iteration of the outer segment loop (loader.py 118-135):
`start_idx = searchsorted(.., side="right") - 1`,
`end_idx = searchsorted(.., side="left")`, run the chunk loop over
`range(start_idx, end_idx)`, then assign
`segment.frequency = self._frequencies[idx]` where `idx` is the loop
variable — `end_idx - 1` if the loop ran, otherwise whatever value (if
any) is left over in `lastIdx` from an earlier segment. -/
def prepareSegment (si : SignalIndex) (allData : List NpVal)
    (cache : List ((ℤ × ℤ) × List NpVal)) (lastIdx : Option ℤ)
    (st et : ℤ) :
    Except PrepErr ((List ((ℤ × ℤ) × List NpVal)) × ℤ × ℚ) := do
  let s : ℤ := (ssRight si.startTimes st : ℤ) - 1
  let e : ℤ := (ssLeft si.startTimes et : ℤ)
  let cache' ← (intRange s e).foldlM (cacheStep si allData) cache
  match (if s < e then some (e - 1) else lastIdx) with
  | none => .error .unbound
  | some i =>
      match pyGet si.frequencies i with
      | some f => .ok (cache', i, f)
      | none => .error .indexError

/-- `Signal.prepare_data_for_segments` (loader.py 109-137) over a batch
of segment time ranges, threading the chunk cache and the loop variable
`idx` (which Python keeps across iterations of the outer loop); returns
the final cache, the final loop variable, and the frequency assigned to
each segment, in order. -/
def prepareDataForSegments (si : SignalIndex) (allData : List NpVal)
    (cache : List ((ℤ × ℤ) × List NpVal)) (lastIdx : Option ℤ) :
    List (ℤ × ℤ) →
      Except PrepErr ((List ((ℤ × ℤ) × List NpVal)) × Option ℤ × List ℚ)
  | [] => .ok (cache, lastIdx, [])
  | (st, et) :: rest => do
      let r ← prepareSegment si allData cache lastIdx st et
      let r' ← prepareDataForSegments si allData r.1 (some r.2.1) rest
      .ok (r'.1, r'.2.1, r.2.2 :: r'.2.2)

lemma prepareSegment_of_empty (si : SignalIndex) (allData : List NpVal)
    (cache : List ((ℤ × ℤ) × List NpVal)) (lastIdx : Option ℤ) (st et : ℤ)
    (hempty : ¬ ((ssRight si.startTimes st : ℤ) - 1
        < (ssLeft si.startTimes et : ℤ))) :
    prepareSegment si allData cache lastIdx st et
      = match lastIdx with
        | none => .error .unbound
        | some i =>
            match pyGet si.frequencies i with
            | some f => .ok (cache, i, f)
            | none => .error .indexError := by
  have hrange : intRange ((ssRight si.startTimes st : ℤ) - 1)
      (ssLeft si.startTimes et : ℤ) = [] := by
    rw [intRange]
    have : ((ssLeft si.startTimes et : ℤ)
        - ((ssRight si.startTimes st : ℤ) - 1)).toNat = 0 := by omega
    rw [this]
    simp
  rw [prepareSegment, hrange]
  rw [if_neg hempty]
  simp only [List.foldlM_nil]
  rfl

lemma except_ok_bind {ε α β : Type} (a : α) (f : α → Except ε β) :
    (Except.ok a : Except ε α) >>= f = f a := rfl

lemma except_error_bind {ε α β : Type} (e : ε) (f : α → Except ε β) :
    (Except.error e : Except ε α) >>= f = .error e := rfl

/-- C10 (confirmed): when a segment's binary-search candidate chunk range
`range(start_idx, end_idx)` is empty, the trailing assignment
`segment.frequency = self._frequencies[idx]` reads the loop variable left
over from processing an earlier segment of the same batch:
(a) for the first segment of a batch this is an unbound-variable error
(`UnboundLocalError`), not a domain error;
(b) with a leftover loop index `i`, the segment is assigned
`frequencies[i]` — the frequency of the last chunk touched for the
earlier segment — and the chunk cache is left untouched;
(c) a segment whose candidate range is non-empty leaves the loop index at
`end_idx - 1`, the last chunk touched for it, and is assigned that
chunk's frequency. -/
theorem stale_frequency_on_empty_range (si : SignalIndex)
    (allData : List NpVal) (cache : List ((ℤ × ℤ) × List NpVal))
    (st et : ℤ) (rest : List (ℤ × ℤ))
    (hempty : ¬ ((ssRight si.startTimes st : ℤ) - 1
        < (ssLeft si.startTimes et : ℤ))) :
    (prepareDataForSegments si allData cache none ((st, et) :: rest)
      = .error .unbound)
    ∧ (∀ (i : ℤ) (f : ℚ), pyGet si.frequencies i = some f →
        prepareSegment si allData cache (some i) st et = .ok (cache, i, f))
    ∧ (∀ (st' et' : ℤ) (lastIdx : Option ℤ)
        (cache' : List ((ℤ × ℤ) × List NpVal)) (i' : ℤ) (f' : ℚ),
        prepareSegment si allData cache lastIdx st' et' = .ok (cache', i', f') →
        ((ssRight si.startTimes st' : ℤ) - 1 < (ssLeft si.startTimes et' : ℤ)) →
        i' = (ssLeft si.startTimes et' : ℤ) - 1
          ∧ pyGet si.frequencies i' = some f') := by
  refine ⟨?_, ?_, ?_⟩
  · rw [prepareDataForSegments,
      prepareSegment_of_empty si allData cache none st et hempty]
    rfl
  · intro i f hf
    rw [prepareSegment_of_empty si allData cache (some i) st et hempty]
    simp only [hf]
  · intro st' et' lastIdx cache' i' f' h hlt
    rw [prepareSegment] at h
    cases hfold : (intRange ((ssRight si.startTimes st' : ℤ) - 1)
        (ssLeft si.startTimes et' : ℤ)).foldlM (cacheStep si allData) cache with
    | error e =>
        rw [hfold, except_error_bind] at h
        cases h
    | ok c2 =>
        rw [hfold, except_ok_bind] at h
        rw [if_pos hlt] at h
        cases hfreq : pyGet si.frequencies
            ((ssLeft si.startTimes et' : ℤ) - 1) with
        | none =>
            simp only [hfreq] at h
            exact Except.noConfusion h
        | some f2 =>
            simp only [hfreq, Except.ok.injEq, Prod.mk.injEq] at h
            obtain ⟨hc2, hi, hf2⟩ := h
            refine ⟨hi.symm, ?_⟩
            rw [← hi, hfreq, hf2]
    
/-- Witness for `stale_frequency_on_empty_range`: one chunk starting at
time 5; the degenerate segment `(5, 5)` has `start_idx = 0`,
`end_idx = 0` — an empty candidate range.  As the first segment of a
batch it aborts with the unbound-variable error; with a leftover index 0
it is assigned `frequencies[0] = 100`. -/
theorem stale_frequency_on_empty_range_witness :
    (prepareDataForSegments ⟨[5], [100], [4], [0]⟩ [NpVal.fin 1] [] none
        [(5, 5)]
      = .error .unbound)
    ∧ prepareSegment ⟨[5], [100], [4], [0]⟩ [NpVal.fin 1] [] (some 0) 5 5
      = .ok ([], 0, 100) := by
  have h := stale_frequency_on_empty_range ⟨[5], [100], [4], [0]⟩
      [NpVal.fin 1] [] 5 5 [] (by decide)
  exact ⟨h.1, h.2.1 0 100 (by decide)⟩

/-! ## Artefact timestamps: `strptime`/`strftime` with
`'%d/%m/%Y %H:%M:%S.%f'` (artefact.py 57-76, exporters.py 22-50) -/

/-- An ASCII decimal digit character, as a value (what `int()` does per
character). -/
def charToDigit (c : Char) : Option ℕ :=
  if c.isDigit then some (c.toNat - 48) else none

/-- The ASCII character of a decimal digit value. -/
def digitToChar (d : ℕ) : Char := Char.ofNat (48 + d)

/-- The numeric value of a big-endian digit list (what `int()` computes
on a digit string). -/
def ofDigits (ds : List ℕ) : ℕ := ds.foldl (fun a d => 10 * a + d) 0

/-- The fixed-width, zero-padded, big-endian digit list of `n` (what a
zero-padding `strftime` directive emits). -/
def toDigitsFixed : ℕ → ℕ → List ℕ
  | 0, _ => []
  | k + 1, n => toDigitsFixed k (n / 10) ++ [n % 10]

/-- Parse a run of digit characters. -/
def parseDigits : List Char → Option (List ℕ)
  | [] => some []
  | c :: cs =>
      match charToDigit c, parseDigits cs with
      | some d, some ds => some (d :: ds)
      | _, _ => none

/-- Render a fixed-width zero-padded decimal number. -/
def renderFixed (k n : ℕ) : List Char := (toDigitsFixed k n).map digitToChar

lemma charToDigit_digitToChar {c : Char} {d : ℕ}
    (h : charToDigit c = some d) : digitToChar d = c ∧ d < 10 := by
  rw [charToDigit] at h
  split at h
  case isFalse => exact Option.noConfusion h
  case isTrue hdig =>
    injection h with h2
    subst h2
    rw [Char.isDigit] at hdig
    simp only [Bool.and_eq_true, decide_eq_true_eq] at hdig
    have h48 : 48 ≤ c.toNat := hdig.1
    have h57 : c.toNat ≤ 57 := hdig.2
    constructor
    · rw [digitToChar]
      have harith : 48 + (c.toNat - 48) = c.toNat := by omega
      rw [harith]
      exact Char.ofNat_toNat c
    · omega

lemma ofDigits_append (ds : List ℕ) (d : ℕ) :
    ofDigits (ds ++ [d]) = 10 * ofDigits ds + d := by
  simp [ofDigits, List.foldl_append]

lemma toDigitsFixed_ofDigits (ds : List ℕ) (h : ∀ d ∈ ds, d < 10) :
    toDigitsFixed ds.length (ofDigits ds) = ds := by
  induction ds using List.reverseRecOn with
  | nil => rfl
  | append_singleton ds d ih =>
      have hd : d < 10 := h d (by simp)
      rw [ofDigits_append, List.length_append, List.length_singleton,
        toDigitsFixed]
      have h10 : (10 * ofDigits ds + d) / 10 = ofDigits ds := by omega
      have hmod : (10 * ofDigits ds + d) % 10 = d := by omega
      rw [h10, hmod, ih (fun x hx => h x (by simp [hx]))]

lemma parseDigits_spec {cs : List Char} {ds : List ℕ}
    (h : parseDigits cs = some ds) :
    ds.length = cs.length ∧ (∀ d ∈ ds, d < 10)
      ∧ ds.map digitToChar = cs := by
  induction cs generalizing ds with
  | nil =>
      injection h with h2
      subst h2
      exact ⟨rfl, by simp, rfl⟩
  | cons c cs ih =>
      rw [parseDigits] at h
      cases hc : charToDigit c with
      | none => rw [hc] at h; exact Option.noConfusion h
      | some d =>
          rw [hc] at h
          cases hp : parseDigits cs with
          | none => rw [hp] at h; exact Option.noConfusion h
          | some ds' =>
              rw [hp] at h
              injection h with h2
              subst h2
              obtain ⟨hlen, hlt, hmap⟩ := ih hp
              obtain ⟨hdc, hd10⟩ := charToDigit_digitToChar hc
              refine ⟨by simp [hlen], ?_, by simp [hdc, hmap]⟩
              intro x hx
              rcases List.mem_cons.1 hx with rfl | hx'
              · exact hd10
              · exact hlt x hx'

/-- A parsed digit run, re-rendered at its own width, reproduces the
original characters. -/
lemma renderFixed_parseDigits {cs : List Char} {ds : List ℕ}
    (h : parseDigits cs = some ds) :
    renderFixed cs.length (ofDigits ds) = cs := by
  obtain ⟨hlen, hlt, hmap⟩ := parseDigits_spec h
  rw [renderFixed, ← hlen, toDigitsFixed_ofDigits ds hlt, hmap]

/-- The Gregorian leap-year rule used by Python's `datetime`. -/
def isLeapYear (y : ℕ) : Bool :=
  y % 4 = 0 && (y % 100 != 0 || y % 400 = 0)

def daysInMonth (y m : ℕ) : ℕ :=
  if m = 2 then (if isLeapYear y then 29 else 28)
  else if m = 4 ∨ m = 6 ∨ m = 9 ∨ m = 11 then 30
  else 31

/-- The fields of a Python `datetime` (timezone excluded: the code pins
UTC via `.replace(tzinfo=timezone.utc)`, which does not alter fields). -/
structure PyDatetime : Type where
  year : ℕ
  month : ℕ
  day : ℕ
  hour : ℕ
  minute : ℕ
  second : ℕ
  microsecond : ℕ
deriving DecidableEq

/-- The range checks the `datetime` constructor performs (what makes
`datetime.strptime` raise `ValueError` on out-of-range fields). -/
def validDT (t : PyDatetime) : Bool :=
  decide (1 ≤ t.year ∧ 1 ≤ t.month ∧ t.month ≤ 12 ∧ 1 ≤ t.day
    ∧ t.day ≤ daysInMonth t.year t.month ∧ t.hour ≤ 23 ∧ t.minute ≤ 59
    ∧ t.second ≤ 59 ∧ t.microsecond ≤ 999999)

/-- `datetime.strptime(s, '%d/%m/%Y %H:%M:%S.%f')` restricted to the
fixed-width form of the format — `DD/MM/YYYY HH:MM:SS.ffffff` with the
fractional part zero-padded to exactly 6 digits — which is the form the
claim quantifies over (`str_time_fill_ms` pads shorter fractions up to
it).  Parsing: fixed separators, decimal fields, `datetime` range
validation. -/
def strptimeFixed (s : List Char) : Option PyDatetime :=
  match s with
  | [d1, d2, c1, m1, m2, c2, y1, y2, y3, y4, c3, h1, h2, c4,
     mi1, mi2, c5, s1, s2, c6, f1, f2, f3, f4, f5, f6] =>
      if c1 = '/' ∧ c2 = '/' ∧ c3 = ' ' ∧ c4 = ':' ∧ c5 = ':' ∧ c6 = '.' then
        match parseDigits [d1, d2], parseDigits [m1, m2],
            parseDigits [y1, y2, y3, y4], parseDigits [h1, h2],
            parseDigits [mi1, mi2], parseDigits [s1, s2],
            parseDigits [f1, f2, f3, f4, f5, f6] with
        | some dd, some mm, some yy, some hh, some mi, some ss, some ff =>
            if validDT ⟨ofDigits yy, ofDigits mm, ofDigits dd, ofDigits hh,
                ofDigits mi, ofDigits ss, ofDigits ff⟩ then
              some ⟨ofDigits yy, ofDigits mm, ofDigits dd, ofDigits hh,
                ofDigits mi, ofDigits ss, ofDigits ff⟩
            else none
        | _, _, _, _, _, _, _ => none
      else none
  | _ => none

/-- `t.strftime('%d/%m/%Y %H:%M:%S.%f')`: every directive zero-pads to
its fixed width (`%d`, `%m`, `%H`, `%M`, `%S` to 2, `%Y` to 4 for the
four-digit years of this format, `%f` to 6). -/
def strftimeFixed (t : PyDatetime) : List Char :=
  renderFixed 2 t.day ++ '/' :: renderFixed 2 t.month
    ++ '/' :: renderFixed 4 t.year ++ ' ' :: renderFixed 2 t.hour
    ++ ':' :: renderFixed 2 t.minute ++ ':' :: renderFixed 2 t.second
    ++ '.' :: renderFixed 6 t.microsecond

/-- `str_time_fill_ms` (helpers.py 27-34): pad the fractional part on the
right with zeros up to 6 digits (add `.000000` when there is none). -/
def strTimeFillMs (s : List Char) : List Char :=
  match s.splitOn '.' with
  | [whole] => whole ++ '.' :: List.replicate 6 '0'
  | [whole, ms] => whole ++ '.' :: (ms ++ List.replicate (6 - ms.length) '0')
  | _ => s

/-- C4 (confirmed): an artefact timestamp string in the fixed format
`DD/MM/YYYY HH:MM:SS.ffffff`, parsed with
`datetime.strptime(·, '%d/%m/%Y %H:%M:%S.%f')` (as `Artefact.from_artf_dict`
does) and re-rendered with the same format string (as `ARTFExporter`
does via `strftime` before its millisecond truncation), reproduces the
original string exactly — microsecond precision is preserved. -/
theorem artf_timestamp_roundtrip (s : List Char) (t : PyDatetime)
    (h : strptimeFixed s = some t) : strftimeFixed t = s := by
  unfold strptimeFixed at h
  split at h
  case h_2 => exact Option.noConfusion h
  case h_1 d1 d2 c1 m1 m2 c2 y1 y2 y3 y4 c3 h1 h2 c4 mi1 mi2 c5 s1 s2 c6 f1 f2 f3 f4 f5 f6 =>
    split at h
    case isFalse => exact Option.noConfusion h
    case isTrue hsep =>
      obtain ⟨hc1, hc2, hc3, hc4, hc5, hc6⟩ := hsep
      subst hc1 hc2 hc3 hc4 hc5 hc6
      split at h
      case h_2 => exact Option.noConfusion h
      case h_1 dd mm yy hh mi ss ff hdd hmm hyy hhh hmi hss hff =>
        split at h
        case isFalse => exact Option.noConfusion h
        case isTrue =>
          injection h with h2
          subst h2
          show renderFixed 2 (ofDigits dd) ++ '/' :: renderFixed 2 (ofDigits mm)
              ++ '/' :: renderFixed 4 (ofDigits yy)
              ++ ' ' :: renderFixed 2 (ofDigits hh)
              ++ ':' :: renderFixed 2 (ofDigits mi)
              ++ ':' :: renderFixed 2 (ofDigits ss)
              ++ '.' :: renderFixed 6 (ofDigits ff) = _
          have hd := renderFixed_parseDigits hdd
          have hm := renderFixed_parseDigits hmm
          have hy := renderFixed_parseDigits hyy
          have hho := renderFixed_parseDigits hhh
          have hmin := renderFixed_parseDigits hmi
          have hsec := renderFixed_parseDigits hss
          have hf := renderFixed_parseDigits hff
          simp only [List.length_cons, List.length_nil] at hd hm hy hho hmin hsec hf
          rw [hd, hm, hy, hho, hmin, hsec, hf]
          simp

/-- Witness for `artf_timestamp_roundtrip` on a concrete timestamp. -/
theorem artf_timestamp_roundtrip_witness :
    strftimeFixed ⟨2021, 1, 5, 12, 30, 45, 987654⟩
      = ['0', '5', '/', '0', '1', '/', '2', '0', '2', '1', ' ',
         '1', '2', ':', '3', '0', ':', '4', '5', '.',
         '9', '8', '7', '6', '5', '4'] := by
  apply artf_timestamp_roundtrip
  decide
